import Mathlib

/-!
Verification development for the upyun-go-sdk REST client
(`src/upyun/upyun-rest-api.go`).  The definitions below are a shallow
embedding of the Go source: Go maps of headers become association lists
with shadowing lookup, the network is an explicit oracle (environment),
and the `ResumePut` part/retry loops, the `GetLargeList`/`loopList`
traversal and `Purge` are translated as executable Lean functions.
-/

namespace Upyun

/-- A Go `error` value as classified by `ResumePut` line 217:
`_, ok := err.(net.Error)` distinguishes network-layer errors from all
other errors (e.g. `errors.New(body)` for a non-2xx response). -/
structure UErr where
  isNetError : Bool
  msg : String
deriving DecidableEq

/-- A Go `map[string]string` (request headers) and also an
`http.Header` restricted to single values.  Modelled as an association
list where an assignment prepends and lookup takes the first match, so
later assignments shadow earlier ones exactly like Go map updates. -/
abbrev Headers := List (String × String)

/-- Lookup in a header map: first binding wins (Go map semantics,
given that `hinsert` prepends). -/
def hfind : Headers → String → Option String
  | [], _ => none
  | (k, v) :: rest, key => if k = key then some v else hfind rest key

/-- Go `headers[k] = v`: map assignment, modelled as a shadowing
prepend. -/
def hinsert (h : Headers) (k v : String) : Headers := (k, v) :: h

/-- Go map read with zero value (`headers[k]` yields `""` when absent),
and `http.Header.Get` on a possibly missing key. -/
def hgetD (h : Headers) (k d : String) : String := (hfind h k).getD d

theorem hfind_hinsert_same (h : Headers) (k v : String) :
    hfind (hinsert h k v) k = some v := by
  simp [hinsert, hfind]

theorem hfind_hinsert_diff (h : Headers) (k v k' : String) (hne : k ≠ k') :
    hfind (hinsert h k v) k' = hfind h k' := by
  simp [hinsert, hfind, hne]

/-! ### The per-part retry loop of `ResumePut` (lines 211–226)

```go
for i := 0; i < ResumeRetryCount+1; i++ {
    resp, err = u.Put(key, file, useMD5, innerHeaders)
    if err == nil { break }
    _, ok := err.(net.Error)
    if !ok            { return resp, err }
    if i == ResumeRetryCount { return resp, err }
    time.Sleep(ResumeWaitTime)
    file.Seek(0, 0)
}
```

`retryGo put N i rest` runs the loop from iteration `i` with `rest`
iterations allowed by the loop condition (`retryLoop` starts it at
`i = 0`, `rest = N+1`).  The trace records every `u.Put` attempt, the
fixed backoff sleep, and the re-seek of the part's fragment window. -/

/-- An observable event of the retry loop. -/
inductive Ev where
  | attempt (i : Nat)
  | sleep
  | seek
deriving DecidableEq

/-- One `u.Put` call: the pair (response headers or nil, error or nil)
exactly as the Go call returns them. -/
abbrev PutResult := Option Headers × Option UErr

/-- The retry loop of `ResumePut`, from iteration `i`, with `rest`
iterations left before the loop condition `i < N+1` exits.  Returns the
event trace, the final value of `resp` and the final value of `err`.
The `rest = 0` case (exit by loop condition) is unreachable from
`retryLoop` since the body returns at `i = N`. -/
def retryGo (put : Nat → PutResult) (N : Nat) : Nat → Nat → List Ev × PutResult
  | _, 0 => ([], (none, none))
  | i, rest + 1 =>
    let (r, e) := put i
    match e with
    | none => ([Ev.attempt i], (r, none))
    | some err =>
      if err.isNetError = false then ([Ev.attempt i], (r, some err))
      else if i = N then ([Ev.attempt i], (r, some err))
      else
        let (evs, out) := retryGo put N (i + 1) rest
        (Ev.attempt i :: Ev.sleep :: Ev.seek :: evs, out)

/-- The whole retry loop (`for i := 0; i < ResumeRetryCount+1; i++`)
with retry count `N`. -/
def retryLoop (put : Nat → PutResult) (N : Nat) : List Ev × PutResult :=
  retryGo put N 0 (N + 1)

/-- The trace produced by a permanently net-failing part: attempts
`0..N`, each failed retry separated by the fixed sleep and the
re-seek of the fragment window to its start. -/
def netFailTrace (N : Nat) : List Ev :=
  ((List.range' 0 N).map (fun i => [Ev.attempt i, Ev.sleep, Ev.seek])).flatten
    ++ [Ev.attempt N]

/-- Segment of `netFailTrace` starting at attempt `i`. -/
def netFailSeg (i N : Nat) : List Ev :=
  ((List.range' i (N - i)).map (fun i => [Ev.attempt i, Ev.sleep, Ev.seek])).flatten
    ++ [Ev.attempt N]

theorem netFailSeg_zero (N : Nat) : netFailSeg 0 N = netFailTrace N := by
  simp [netFailSeg, netFailTrace]

theorem retryGo_all_net (put : Nat → PutResult) (N : Nat)
    (r : Nat → Option Headers) (e : Nat → UErr)
    (hput : ∀ i, put i = (r i, some (e i)))
    (hnet : ∀ i, (e i).isNetError = true) :
    ∀ rest i, i + rest = N + 1 → i ≤ N →
      retryGo put N i rest = (netFailSeg i N, (r N, some (e N))) := by
  intro rest
  induction rest with
  | zero => intro i hi hiN; omega
  | succ rest ih =>
    intro i hi hiN
    rw [retryGo, hput i]
    simp only [hnet i, Bool.true_eq_false, if_false]
    by_cases hEq : i = N
    · subst hEq
      simp [netFailSeg, Nat.sub_self]
    · have hlt : i < N := lt_of_le_of_ne hiN hEq
      have hrec := ih (i + 1) (by omega) (by omega)
      simp only [hEq, if_false, hrec]
      have hseg : netFailSeg i N =
          Ev.attempt i :: Ev.sleep :: Ev.seek :: netFailSeg (i + 1) N := by
        have hsub : N - i = (N - (i + 1)) + 1 := by omega
        simp [netFailSeg, hsub, List.range'_succ]
      rw [hseg]

/-- C1: the retry policy of `ResumePut`'s inner loop.  If every attempt
fails with a transient network-layer error, the part is attempted
exactly `N+1` times (trace `netFailTrace N`: a fixed sleep and a
re-seek of the fragment window before each retry) and the last error
observed is returned.  If the first failure is a non-network error, the
part is attempted exactly once and that error is returned immediately. -/
theorem resumePut_retry_policy (N : Nat) (put : Nat → PutResult) :
    ((∀ (r : Nat → Option Headers) (e : Nat → UErr),
        (∀ i, put i = (r i, some (e i))) → (∀ i, (e i).isNetError = true) →
        retryLoop put N = (netFailTrace N, (r N, some (e N)))) ∧
      (∀ (r0 : Option Headers) (e0 : UErr),
        put 0 = (r0, some e0) → e0.isNetError = false →
        retryLoop put N = ([Ev.attempt 0], (r0, some e0)))) ∧
    ((netFailTrace N).countP (fun ev => match ev with
        | Ev.attempt _ => true | _ => false)) = N + 1 := by
  refine ⟨⟨?_, ?_⟩, ?_⟩
  · intro r e hput hnet
    rw [retryLoop, retryGo_all_net put N r e hput hnet (N + 1) 0 (by omega)
      (by omega), netFailSeg_zero]
  · intro r0 e0 hput hnot
    rw [retryLoop, retryGo, hput]
    simp [hnot]
  · have key : ∀ (n s : Nat),
        (((List.range' s n).map
          (fun i => [Ev.attempt i, Ev.sleep, Ev.seek])).flatten).countP
            (fun ev => match ev with
              | Ev.attempt _ => true | _ => false) = n := by
      intro n
      induction n with
      | zero => intro s; rfl
      | succ n ih =>
        intro s
        rw [List.range'_succ, List.map_cons, List.flatten_cons,
          List.countP_append, ih (s + 1)]
        have h1 : ([Ev.attempt s, Ev.sleep, Ev.seek]).countP
            (fun ev => match ev with
              | Ev.attempt _ => true | _ => false) = 1 := rfl
        rw [h1]
        omega
    rw [netFailTrace, List.countP_append, key N 0]
    have h2 : ([Ev.attempt N]).countP
        (fun ev => match ev with
          | Ev.attempt _ => true | _ => false) = 1 := rfl
    rw [h2]

/-- A permanently net-failing `Put` oracle. -/
def putAllNet : Nat → PutResult := fun _ => (none, some ⟨true, "timeout"⟩)

/-- A `Put` oracle failing with a protocol (non-network) error. -/
def putProto : Nat → PutResult := fun _ => (some [], some ⟨false, "403"⟩)

theorem resumePut_retry_policy_witness :
    retryLoop putAllNet 2 = (netFailTrace 2, (none, some ⟨true, "timeout"⟩)) ∧
    retryLoop putProto 3 = ([Ev.attempt 0], (some [], some ⟨false, "403"⟩)) :=
  ⟨(resumePut_retry_policy 2 putAllNet).1.1 (fun _ => none)
      (fun _ => ⟨true, "timeout"⟩) (fun _ => rfl) (fun _ => rfl),
    (resumePut_retry_policy 3 putProto).1.2 (some []) ⟨false, "403"⟩ rfl rfl⟩

/-! ### The part loop of `ResumePut` (lines 152–237) -/

/-- One observed `u.Put` invocation of the part loop: which part, which
retry attempt, and the header map passed to it. -/
structure PartCall where
  part : Nat
  attempt : Nat
  hdrs : Headers
deriving DecidableEq

/-- The configuration constants `resumePartSize`,
`resumeFileSizeLowerLimit` and `ResumeRetryCount` (declared outside
`src/`, kept abstract). -/
structure RPCfg where
  partSize : Nat
  lowerLimit : Nat
  retryCount : Nat
deriving DecidableEq

/-- The environment of `ResumePut`: `put part attempt headers` is the
outcome of `u.Put` for the given part and retry attempt, `partMD5` is
`FragmentFile.MD5` of a part's window, `fullMD5` is `md5sum` of the
whole file, `singlePut` the small-file `u.Put` delegation. -/
structure RPEnv where
  put : Nat → Nat → Headers → PutResult
  partMD5 : Nat → String
  fullMD5 : String
  singlePut : Headers → PutResult

/-- The per-part header map of `ResumePut` (lines 177–208): a fresh
copy of the base map plus the part id, the stage-dependent headers of
the `switch part` statement, and the optional per-part `Content-MD5`.
Reads of `headers["Content-Type"]` (line 185) are reads of the base
map. -/
def buildInner (cfg : RPCfg) (env : RPEnv) (useMD5 : Bool)
    (size maxPartID part : Nat) (base : Headers) : Headers :=
  let h1 := hinsert base "X-Upyun-Part-Id" (toString part)
  let h2 :=
    if part = 0 then
      hinsert (hinsert (hinsert (hinsert h1
        "X-Upyun-Multi-Type" (hgetD base "Content-Type" ""))
        "X-Upyun-Multi-Length" (toString size))
        "X-Upyun-Multi-Stage" "initiate,upload")
        "Content-Length" (toString cfg.partSize)
    else if part = maxPartID then
      let h := hinsert (hinsert h1 "X-Upyun-Multi-Stage" "upload,complete")
        "Content-Length" (toString (size - cfg.partSize * part))
      if useMD5 then hinsert h "X-Upyun-Multi-MD5" env.fullMD5 else h
    else
      hinsert (hinsert h1 "X-Upyun-Multi-Stage" "upload")
        "Content-Length" (toString cfg.partSize)
  if useMD5 then hinsert h2 "Content-MD5" (env.partMD5 part) else h2

/-- Modelled from the spec: `NewFragmentFile` (defined outside `src/`)
"rejects construction if the offset exceeds the base resource's
extent". -/
def fragErr : UErr := ⟨false, "fragment offset exceeds file size"⟩

/-- The `u.Put` calls a retry-loop trace corresponds to. -/
def attemptCalls (part : Nat) (inner : Headers) (evs : List Ev) : List PartCall :=
  evs.filterMap (fun ev => match ev with
    | Ev.attempt i => some ⟨part, i, inner⟩
    | _ => none)

/-- The `for part := 0; part <= maxPartID; part++` loop (lines
175–234), from `part` with `rest` remaining iterations.  State: the
base header map (line 232 writes the session token into it) and the
`resp` variable.  Returns all observed `u.Put` calls, the final base
map, and the returned response/error pair. -/
def runParts (env : RPEnv) (cfg : RPCfg) (useMD5 : Bool) (size maxPartID : Nat) :
    Nat → Nat → Headers → Option Headers →
    List PartCall × Headers × Option Headers × Option UErr
  | 0, _, base, resp => ([], base, resp, none)
  | rest + 1, part, base, resp =>
    let inner := buildInner cfg env useMD5 size maxPartID part base
    if size < part * cfg.partSize then
      ([], base, resp, some fragErr)
    else
      let res := retryLoop (fun i => env.put part i inner) cfg.retryCount
      let r := res.2.1
      match res.2.2 with
      | some err => (attemptCalls part inner res.1, base, r, some err)
      | none =>
        let base' := if part = 0 then
            hinsert base "X-Upyun-Multi-UUID"
              (hgetD (r.getD []) "X-Upyun-Multi-Uuid" "")
          else base
        let tail := runParts env cfg useMD5 size maxPartID rest (part + 1) base' r
        (attemptCalls part inner res.1 ++ tail.1, tail.2)

/-- `maxPartID` of lines 168–171, as the Go `int` computation
(`int(size / partSize)`, minus one when the size is an exact multiple):
an integer, so that `size = 0` yields `-1` and an empty part loop. -/
def maxPartIdZ (cfg : RPCfg) (size : Nat) : Int :=
  (size : Int) / (cfg.partSize : Int) -
    (if (size : Int) % (cfg.partSize : Int) = 0 then 1 else 0)

/-- Result of a `ResumePut` run: observed `u.Put` part calls, the final
state of the caller-supplied base header map, the returned response
headers and error, and whether the small-file single-shot path was
taken. -/
structure RPOut where
  calls : List PartCall
  base : Headers
  resp : Option Headers
  err : Option UErr
  single : Bool

/-- `ResumePut` (lines 152–237).  Sizes below the configured lower
limit delegate to the single-shot `u.Put`; otherwise the part loop
uploads parts `0..maxPartID`. -/
def resumePut (env : RPEnv) (cfg : RPCfg) (size : Nat) (useMD5 : Bool)
    (headers : Headers) : RPOut :=
  if size < cfg.lowerLimit then
    ⟨[], headers, (env.singlePut headers).1, (env.singlePut headers).2, true⟩
  else
    let M := maxPartIdZ cfg size
    let out := runParts env cfg useMD5 size M.toNat (M + 1).toNat 0 headers none
    ⟨out.1, out.2.1, out.2.2.1, out.2.2.2, false⟩

theorem retryLoop_first_ok (put : Nat → PutResult) (N : Nat)
    (h : (put 0).2 = none) :
    retryLoop put N = ([Ev.attempt 0], ((put 0).1, none)) := by
  rcases hp : put 0 with ⟨r, e⟩
  rw [hp] at h
  simp only at h
  subst h
  rw [retryLoop, retryGo, hp]

theorem attemptCalls_single (part : Nat) (inner : Headers) :
    attemptCalls part inner [Ev.attempt 0] = [⟨part, 0, inner⟩] := rfl

theorem runParts_all_ok (env : RPEnv) (cfg : RPCfg) (useMD5 : Bool)
    (size maxPartID : Nat)
    (hok : ∀ p i h, (env.put p i h).2 = none) :
    ∀ rest part base resp,
      (∀ p, p < part + rest → p * cfg.partSize ≤ size) →
      ((runParts env cfg useMD5 size maxPartID rest part base resp).1.map
          PartCall.part = List.range' part rest ∧
        (runParts env cfg useMD5 size maxPartID rest part base resp).2.2.2
          = none) := by
  intro rest
  induction rest with
  | zero => intro part base resp _; exact ⟨rfl, rfl⟩
  | succ rest ih =>
    intro part base resp hbound
    have hfrag : ¬ size < part * cfg.partSize := by
      have := hbound part (by omega)
      omega
    have hretry := retryLoop_first_ok
      (fun i => env.put part i
        (buildInner cfg env useMD5 size maxPartID part base))
      cfg.retryCount (hok part 0 _)
    rw [runParts]
    simp only [hfrag, if_false, hretry, attemptCalls_single, List.map_append,
      List.map_cons, List.map_nil, List.range'_succ]
    refine ⟨?_, ?_⟩
    · rw [(ih (part + 1) _ _ (fun p hp => hbound p (by omega))).1]
      rfl
    · exact (ih (part + 1) _ _ (fun p hp => hbound p (by omega))).2

theorem maxPartIdZ_eq (cfg : RPCfg) (size : Nat) :
    maxPartIdZ cfg size =
      ((size / cfg.partSize : Nat) : Int) -
        (if size % cfg.partSize = 0 then 1 else 0) := by
  rw [maxPartIdZ]
  simp only [← Int.natCast_div, ← Int.natCast_mod, Nat.cast_eq_zero]

/-- C2: for a size at or above the chunking threshold, `ResumePut`
uploads exactly `size / partSize` parts when the size is an exact
multiple of the part size and one more part otherwise, the parts being
numbered `0..maxPartID`. -/
theorem resumePut_part_count (env : RPEnv) (cfg : RPCfg) (size : Nat)
    (useMD5 : Bool) (h0 : Headers)
    (hP : 0 < cfg.partSize) (hS : 0 < size) (hth : cfg.lowerLimit ≤ size)
    (hok : ∀ p i h, (env.put p i h).2 = none) :
    (resumePut env cfg size useMD5 h0).calls.map PartCall.part =
      List.range (if size % cfg.partSize = 0 then size / cfg.partSize
        else size / cfg.partSize + 1) := by
  have hnl : ¬ size < cfg.lowerLimit := by omega
  have hqP : cfg.partSize * (size / cfg.partSize) + size % cfg.partSize = size :=
    Nat.div_add_mod size cfg.partSize
  have hq1 : size % cfg.partSize = 0 → 1 ≤ size / cfg.partSize := by
    intro h
    rcases Nat.eq_zero_or_pos (size / cfg.partSize) with h' | h'
    · rw [h', Nat.mul_zero] at hqP
      omega
    · exact h'
  have hrest : ((maxPartIdZ cfg size) + 1).toNat =
      (if size % cfg.partSize = 0 then size / cfg.partSize
       else size / cfg.partSize + 1) := by
    rw [maxPartIdZ_eq]
    by_cases h : size % cfg.partSize = 0
    · have h1 := hq1 h
      rw [if_pos h, if_pos h]
      generalize size / cfg.partSize = q at h1 ⊢
      omega
    · rw [if_neg h, if_neg h]
      generalize size / cfg.partSize = q
      omega
  have hbound : ∀ p, p < 0 + ((maxPartIdZ cfg size) + 1).toNat →
      p * cfg.partSize ≤ size := by
    intro p hp
    rw [hrest] at hp
    have hple : p ≤ size / cfg.partSize := by
      by_cases h : size % cfg.partSize = 0
      · simp only [h, if_true] at hp; omega
      · simp only [h, if_false] at hp; omega
    calc p * cfg.partSize ≤ (size / cfg.partSize) * cfg.partSize :=
          Nat.mul_le_mul_right _ hple
      _ ≤ size := Nat.div_mul_le_self size cfg.partSize
  have hmain := runParts_all_ok env cfg useMD5 size (maxPartIdZ cfg size).toNat
    hok ((maxPartIdZ cfg size) + 1).toNat 0 h0 none hbound
  simp only [resumePut, if_neg hnl]
  rw [hmain.1, List.range_eq_range', hrest]

/-- Small concrete configuration for witnesses: part size 2, chunking
threshold 4, one retry. -/
def cfgC : RPCfg := ⟨2, 4, 1⟩

/-- An always-succeeding environment whose responses carry a session
token. -/
def envOkC : RPEnv where
  put := fun _ _ _ => (some [("X-Upyun-Multi-Uuid", "tok")], none)
  partMD5 := fun _ => ""
  fullMD5 := ""
  singlePut := fun _ => (none, none)

theorem resumePut_part_count_witness :
    (resumePut envOkC cfgC 5 false []).calls.map PartCall.part =
      List.range 3 := by
  have h := resumePut_part_count envOkC cfgC 5 false []
    (by decide) (by decide) (by decide) (fun _ _ _ => rfl)
  exact h

theorem attemptCalls_mem (part : Nat) (inner : Headers) (evs : List Ev) :
    ∀ c ∈ attemptCalls part inner evs, c.part = part ∧ c.hdrs = inner := by
  intro c hc
  rw [attemptCalls, List.mem_filterMap] at hc
  obtain ⟨ev, _, hev⟩ := hc
  cases ev with
  | attempt i =>
    simp only [Option.some.injEq] at hev
    rw [← hev]
    exact ⟨rfl, rfl⟩
  | sleep => simp at hev
  | seek => simp at hev

theorem runParts_calls_ge1 (env : RPEnv) (cfg : RPCfg) (useMD5 : Bool)
    (size M : Nat) :
    ∀ rest part base resp, 1 ≤ part →
      (runParts env cfg useMD5 size M rest part base resp).2.1 = base ∧
      ∀ c ∈ (runParts env cfg useMD5 size M rest part base resp).1,
        part ≤ c.part ∧ c.part < part + rest ∧
        c.hdrs = buildInner cfg env useMD5 size M c.part base := by
  intro rest
  induction rest with
  | zero =>
    intro part base resp h1
    exact ⟨rfl, by intro c hc; simp [runParts] at hc⟩
  | succ rest ih =>
    intro part base resp h1
    rw [runParts]
    by_cases hfrag : size < part * cfg.partSize
    · rw [if_pos hfrag]
      exact ⟨rfl, by intro c hc; simp at hc⟩
    · rw [if_neg hfrag]
      rcases hE : retryLoop (fun i => env.put part i
          (buildInner cfg env useMD5 size M part base)) cfg.retryCount
        with ⟨evs, r, e⟩
      simp only [hE]
      cases e with
      | some err =>
        refine ⟨rfl, ?_⟩
        intro c hc
        obtain ⟨hp, hh⟩ := attemptCalls_mem part _ evs c hc
        refine ⟨by omega, by omega, ?_⟩
        rw [hh, hp]
      | none =>
        have hp0 : ¬ part = 0 := by omega
        simp only [hp0, if_false]
        obtain ⟨ihb, ihc⟩ := ih (part + 1) base r (by omega)
        refine ⟨ihb, ?_⟩
        intro c hc
        rw [List.mem_append] at hc
        rcases hc with hc | hc
        · obtain ⟨hp, hh⟩ := attemptCalls_mem part _ evs c hc
          refine ⟨by omega, by omega, ?_⟩
          rw [hh, hp]
        · obtain ⟨h1c, h2c, h3c⟩ := ihc c hc
          exact ⟨by omega, by omega, h3c⟩

theorem runParts_from_zero (env : RPEnv) (cfg : RPCfg) (useMD5 : Bool)
    (size M rest : Nat) (base : Headers) (resp : Option Headers) :
    (∀ c ∈ (runParts env cfg useMD5 size M (rest + 1) 0 base resp).1,
        (c.part = 0 → c.hdrs = buildInner cfg env useMD5 size M 0 base) ∧
        (1 ≤ c.part → c.part ≤ rest ∧
          c.hdrs = buildInner cfg env useMD5 size M c.part
            (hinsert base "X-Upyun-Multi-UUID"
              (hgetD (((retryLoop (fun i => env.put 0 i
                  (buildInner cfg env useMD5 size M 0 base))
                cfg.retryCount).2.1).getD [])
                "X-Upyun-Multi-Uuid" "")))) ∧
    ((runParts env cfg useMD5 size M (rest + 1) 0 base resp).2.1 = base ∨
      (runParts env cfg useMD5 size M (rest + 1) 0 base resp).2.1 =
        hinsert base "X-Upyun-Multi-UUID"
          (hgetD (((retryLoop (fun i => env.put 0 i
              (buildInner cfg env useMD5 size M 0 base))
            cfg.retryCount).2.1).getD []) "X-Upyun-Multi-Uuid" "")) := by
  rw [runParts]
  have hfrag : ¬ size < 0 * cfg.partSize := by
    rw [Nat.zero_mul]
    exact Nat.not_lt_zero size
  rw [if_neg hfrag]
  rcases hE : retryLoop (fun i => env.put 0 i
      (buildInner cfg env useMD5 size M 0 base)) cfg.retryCount
    with ⟨evs, r, e⟩
  simp only [hE]
  cases e with
  | some err =>
    constructor
    · intro c hc
      obtain ⟨hp, hh⟩ := attemptCalls_mem 0 _ evs c hc
      constructor
      · intro _; rw [hh]
      · intro h1c; omega
    · exact Or.inl rfl
  | none =>
    simp only [if_pos rfl]
    obtain ⟨ihb, ihc⟩ := runParts_calls_ge1 env cfg useMD5 size M rest 1
      (hinsert base "X-Upyun-Multi-UUID" (hgetD (r.getD [])
        "X-Upyun-Multi-Uuid" "")) r (le_refl 1)
    constructor
    · intro c hc
      rw [List.mem_append] at hc
      rcases hc with hc | hc
      · obtain ⟨hp, hh⟩ := attemptCalls_mem 0 _ evs c hc
        constructor
        · intro _
          rw [hh]
        · intro h1c; omega
      · obtain ⟨h1c, h2c, h3c⟩ := ihc c hc
        constructor
        · intro h0c; omega
        · intro _
          exact ⟨by omega, h3c⟩
    · exact Or.inr ihb

theorem buildInner_fields_zero (cfg : RPCfg) (env : RPEnv) (useMD5 : Bool)
    (size M : Nat) (base : Headers) :
    hfind (buildInner cfg env useMD5 size M 0 base) "X-Upyun-Multi-Stage"
        = some "initiate,upload" ∧
    hfind (buildInner cfg env useMD5 size M 0 base) "X-Upyun-Multi-Length"
        = some (toString size) ∧
    hfind (buildInner cfg env useMD5 size M 0 base) "X-Upyun-Multi-Type"
        = some (hgetD base "Content-Type" "") ∧
    hfind (buildInner cfg env useMD5 size M 0 base) "Content-Length"
        = some (toString cfg.partSize) := by
  rw [buildInner]
  simp only [if_pos rfl]
  by_cases hu : useMD5 <;> simp [hu, hinsert, hfind]

theorem buildInner_fields_mid (cfg : RPCfg) (env : RPEnv) (useMD5 : Bool)
    (size M part : Nat) (base : Headers) (h0 : part ≠ 0) (hm : part ≠ M) :
    hfind (buildInner cfg env useMD5 size M part base) "X-Upyun-Multi-Stage"
        = some "upload" ∧
    hfind (buildInner cfg env useMD5 size M part base) "Content-Length"
        = some (toString cfg.partSize) := by
  rw [buildInner]
  simp only [if_neg h0, if_neg hm]
  by_cases hu : useMD5 <;> simp [hu, hinsert, hfind]

theorem buildInner_fields_last (cfg : RPCfg) (env : RPEnv) (useMD5 : Bool)
    (size M : Nat) (base : Headers) (hm0 : M ≠ 0) :
    hfind (buildInner cfg env useMD5 size M M base) "X-Upyun-Multi-Stage"
        = some "upload,complete" ∧
    hfind (buildInner cfg env useMD5 size M M base) "Content-Length"
        = some (toString (size - cfg.partSize * M)) := by
  rw [buildInner]
  simp only [if_neg hm0, if_pos rfl]
  by_cases hu : useMD5 <;> simp [hu, hinsert, hfind]

theorem buildInner_uuid (cfg : RPCfg) (env : RPEnv) (useMD5 : Bool)
    (size M part : Nat) (base : Headers) :
    hfind (buildInner cfg env useMD5 size M part base) "X-Upyun-Multi-UUID"
      = hfind base "X-Upyun-Multi-UUID" := by
  rw [buildInner]
  by_cases h0 : part = 0
  · rw [if_pos h0]
    by_cases hu : useMD5 <;> simp [hu, hinsert, hfind]
  · rw [if_neg h0]
    by_cases hm : part = M
    · rw [if_pos hm]
      by_cases hu : useMD5 <;> simp [hu, hinsert, hfind]
    · rw [if_neg hm]
      by_cases hu : useMD5 <;> simp [hu, hinsert, hfind]

/-- C3: the per-part headers of a multi-part `ResumePut` upload.  Part
0 carries the initiate stage, the declared whole-object length and
content type, and a full part length; middle parts carry the upload
stage and a full part length; the final part carries the completing
stage and the remainder length. -/
theorem resumePut_stage_headers (env : RPEnv) (cfg : RPCfg) (size : Nat)
    (useMD5 : Bool) (h0 : Headers)
    (hth : cfg.lowerLimit ≤ size)
    (hM : 1 ≤ (maxPartIdZ cfg size).toNat) :
    ∀ c ∈ (resumePut env cfg size useMD5 h0).calls,
      (c.part = 0 →
        hfind c.hdrs "X-Upyun-Multi-Stage" = some "initiate,upload" ∧
        hfind c.hdrs "X-Upyun-Multi-Length" = some (toString size) ∧
        hfind c.hdrs "X-Upyun-Multi-Type" = some (hgetD h0 "Content-Type" "") ∧
        hfind c.hdrs "Content-Length" = some (toString cfg.partSize)) ∧
      (0 < c.part → c.part < (maxPartIdZ cfg size).toNat →
        hfind c.hdrs "X-Upyun-Multi-Stage" = some "upload" ∧
        hfind c.hdrs "Content-Length" = some (toString cfg.partSize)) ∧
      (c.part = (maxPartIdZ cfg size).toNat →
        hfind c.hdrs "X-Upyun-Multi-Stage" = some "upload,complete" ∧
        hfind c.hdrs "Content-Length" =
          some (toString (size - cfg.partSize * (maxPartIdZ cfg size).toNat))) := by
  have hnl : ¬ size < cfg.lowerLimit := by omega
  have hrest : ((maxPartIdZ cfg size) + 1).toNat =
      (maxPartIdZ cfg size).toNat + 1 := by omega
  simp only [resumePut, if_neg hnl, hrest]
  intro c hc
  obtain ⟨hcall, _⟩ := runParts_from_zero env cfg useMD5 size
    (maxPartIdZ cfg size).toNat (maxPartIdZ cfg size).toNat h0 none
  obtain ⟨hzero, hpos⟩ := hcall c hc
  refine ⟨?_, ?_, ?_⟩
  · intro h0c
    rw [hzero h0c]
    exact buildInner_fields_zero cfg env useMD5 size _ h0
  · intro hlt1 hlt2
    obtain ⟨hle, heq⟩ := hpos (by omega)
    rw [heq]
    exact buildInner_fields_mid cfg env useMD5 size _ c.part _
      (by omega) (by omega)
  · intro hceq
    obtain ⟨hle, heq⟩ := hpos (by omega)
    rw [heq, hceq]
    exact buildInner_fields_last cfg env useMD5 size _ _ (by omega)

/-- The final part's observed call in the concrete witness run
(`size = 5`, `partSize = 2`, so `maxPartID = 2`). -/
def c2C : PartCall :=
  ⟨2, 0, [("Content-Length", "1"), ("X-Upyun-Multi-Stage", "upload,complete"),
    ("X-Upyun-Part-Id", "2"), ("X-Upyun-Multi-UUID", "tok")]⟩

theorem resumePut_stage_headers_witness :
    hfind c2C.hdrs "X-Upyun-Multi-Stage" = some "upload,complete" ∧
    hfind c2C.hdrs "Content-Length" = some (toString (5 - 2 * 2)) :=
  (resumePut_stage_headers envOkC cfgC 5 false [] (by decide) (by decide)
    c2C (by decide)).2.2 (by decide)

theorem retryGo_resp (put : Nat → PutResult) (N : Nat) (r0 : Headers)
    (hresp : ∀ j, (put j).1 = some r0) :
    ∀ rest i, i + rest = N + 1 → 0 < rest →
      (retryGo put N i rest).2.1 = some r0 := by
  intro rest
  induction rest with
  | zero => intro i _ h; omega
  | succ rest ih =>
    intro i hi _
    rw [retryGo]
    rcases hp : put i with ⟨r, e⟩
    have hr : r = some r0 := by
      have h := hresp i
      rw [hp] at h
      exact h
    cases e with
    | none => simp [hr]
    | some err =>
      by_cases hnet : err.isNetError = false
      · simp [hnet, hr]
      · by_cases hiN : i = N
        · simp [hnet, hiN, hr]
        · simp only [hnet, if_false, hiN]
          rcases hR : retryGo put N (i + 1) rest with ⟨evs', out'⟩
          have hout := ih (i + 1) (by omega) (by omega)
          rw [hR] at hout
          simp only [hR]
          simpa using hout

/-- C4: the multipart session token extracted from part 0's response
(`X-Upyun-Multi-Uuid`) is present, unchanged, in the request headers of
every part after part 0 (under the `X-Upyun-Multi-UUID` key written
into the base map at line 232), and no later part is sent without
it. -/
theorem resumePut_session_token (env : RPEnv) (cfg : RPCfg) (size : Nat)
    (useMD5 : Bool) (h0 : Headers) (r0 : Headers)
    (hresp : ∀ i h, (env.put 0 i h).1 = some r0) :
    ∀ c ∈ (resumePut env cfg size useMD5 h0).calls, 1 ≤ c.part →
      hfind c.hdrs "X-Upyun-Multi-UUID" =
        some (hgetD r0 "X-Upyun-Multi-Uuid" "") := by
  intro c hc h1c
  by_cases hnl : size < cfg.lowerLimit
  · simp only [resumePut, if_pos hnl] at hc
    simp at hc
  · simp only [resumePut, if_neg hnl] at hc
    rcases hR : ((maxPartIdZ cfg size) + 1).toNat with _ | rest
    · rw [hR] at hc
      simp [runParts] at hc
    · rw [hR] at hc
      obtain ⟨hcall, _⟩ := runParts_from_zero env cfg useMD5 size
        (maxPartIdZ cfg size).toNat rest h0 none
      obtain ⟨_, hpos⟩ := hcall c hc
      obtain ⟨_, heq⟩ := hpos h1c
      rw [heq, buildInner_uuid, hfind_hinsert_same]
      have hloop : (retryLoop (fun i => env.put 0 i
          (buildInner cfg env useMD5 size (maxPartIdZ cfg size).toNat 0 h0))
          cfg.retryCount).2.1 = some r0 :=
        retryGo_resp _ cfg.retryCount r0 (fun j => hresp j _)
          (cfg.retryCount + 1) 0 (by omega) (by omega)
      rw [hloop]
      rfl

theorem resumePut_session_token_witness :
    hfind (⟨1, 0, [("Content-Length", "2"), ("X-Upyun-Multi-Stage", "upload"),
        ("X-Upyun-Part-Id", "1"), ("X-Upyun-Multi-UUID", "tok")]⟩ :
          PartCall).hdrs
      "X-Upyun-Multi-UUID" = some "tok" :=
  resumePut_session_token envOkC cfgC 5 false []
    [("X-Upyun-Multi-Uuid", "tok")] (fun _ _ => rfl)
    ⟨1, 0, [("Content-Length", "2"), ("X-Upyun-Multi-Stage", "upload"),
      ("X-Upyun-Part-Id", "1"), ("X-Upyun-Multi-UUID", "tok")]⟩
    (by decide) (by decide)

/-- C5 counterexample: `ResumePut` does mutate the caller-supplied base
header map — after a successful run the session token is stored in it
(line 232), so the claim that the base map is never mutated is false. -/
theorem resumePut_base_mutation_cex :
    hfind (resumePut envOkC cfgC 5 false []).base "X-Upyun-Multi-UUID"
        = some "tok" ∧
    hfind ([] : Headers) "X-Upyun-Multi-UUID" = none := by
  exact ⟨rfl, rfl⟩

/-- C5 (amended): each part's header map is a fresh copy built from the
base map (shared by all retry attempts of that part), no header written
for one part leaks into another part's map, and the base map is
untouched except for the session-token key `X-Upyun-Multi-UUID`, which
is deliberately written into it after part 0 succeeds. -/
theorem resumePut_header_isolation (env : RPEnv) (cfg : RPCfg) (size : Nat)
    (useMD5 : Bool) (h0 : Headers) :
    (∀ k, k ≠ "X-Upyun-Multi-UUID" →
        hfind (resumePut env cfg size useMD5 h0).base k = hfind h0 k) ∧
    (∀ c ∈ (resumePut env cfg size useMD5 h0).calls,
        ∃ b, c.hdrs = buildInner cfg env useMD5 size
            (maxPartIdZ cfg size).toNat c.part b ∧
          ∀ k, k ≠ "X-Upyun-Multi-UUID" → hfind b k = hfind h0 k) ∧
    (∀ c ∈ (resumePut env cfg size useMD5 h0).calls,
      ∀ c' ∈ (resumePut env cfg size useMD5 h0).calls,
        c.part = c'.part → c.hdrs = c'.hdrs) := by
  by_cases hnl : size < cfg.lowerLimit
  · simp only [resumePut, if_pos hnl]
    refine ⟨by simp, ?_, ?_⟩
    · intro c hc; simp at hc
    · intro c hc; simp at hc
  · simp only [resumePut, if_neg hnl]
    cases hR : ((maxPartIdZ cfg size) + 1).toNat with
    | zero =>
      refine ⟨by simp [runParts], ?_, ?_⟩
      · intro c hc; simp [runParts] at hc
      · intro c hc; simp [runParts] at hc
    | succ rest =>
      obtain ⟨hcall, hbase⟩ := runParts_from_zero env cfg useMD5 size
        (maxPartIdZ cfg size).toNat rest h0 none
      refine ⟨?_, ?_, ?_⟩
      · intro k hk
        rcases hbase with hb | hb
        · rw [hb]
        · rw [hb, hfind_hinsert_diff _ _ _ _ (fun h => hk h.symm)]
      · intro c hc
        obtain ⟨hzero, hpos⟩ := hcall c hc
        by_cases h0c : c.part = 0
        · refine ⟨h0, ?_, fun k _ => rfl⟩
          rw [hzero h0c, h0c]
        · obtain ⟨_, heq⟩ := hpos (by omega)
          refine ⟨_, heq, ?_⟩
          intro k hk
          exact hfind_hinsert_diff _ _ _ _ (fun h => hk h.symm)
      · intro c hc c' hc' hpp
        obtain ⟨hzero, hpos⟩ := hcall c hc
        obtain ⟨hzero', hpos'⟩ := hcall c' hc'
        by_cases h0c : c.part = 0
        · rw [hzero h0c, hzero' (hpp ▸ h0c)]
        · obtain ⟨_, heq⟩ := hpos (by omega)
          obtain ⟨_, heq'⟩ := hpos' (by omega)
          rw [heq, heq', hpp]

theorem resumePut_header_isolation_witness :
    hfind (resumePut envOkC cfgC 5 false [("A", "1")]).base "A"
      = some "1" :=
  (resumePut_header_isolation envOkC cfgC 5 false [("A", "1")]).1 "A"
    (by decide)

/-! ### Listing traversal: `GetLargeList` and `loopList` (lines 286–380)

Go strings in the traversal are modelled as explicit character lists so
that the path arithmetic of `path.Join` / `strings.Replace` is fully
computable. -/

/-- A Go string, as its character sequence. -/
abbrev Str := List Char

/-- A parsed directory entry (`FileInfo`, produced by the opaque
listing parser `newFileInfo`); only the fields the traversal reads. -/
structure FileInfo where
  name : Str
  ftype : Str
deriving DecidableEq

/-- One page-fetch response: the parsed entries of the body and the
`X-Upyun-List-Iter` response header (`none` when the header is entirely
absent). -/
structure Page where
  infos : List FileInfo
  iterHdr : Option Str
deriving DecidableEq

/-- The environment of the traversal: `fetch key iter order limit` is
the outcome of the `doRESTRequest` page fetch performed by
`loopList`. -/
structure LEnv where
  fetch : Str → Str → Str → Nat → Except UErr Page

/-- Split a path at `'/'` (`strings.Split`-like; every string splits
into at least one component). -/
def splitSlash : Str → List Str
  | [] => [[]]
  | c :: rest =>
    let gs := splitSlash rest
    if c = '/' then [] :: gs
    else (c :: gs.headI) :: gs.tail

/-- Join components with `'/'`. -/
def joinSlash : List Str → Str
  | [] => []
  | [c] => c
  | c :: cs => c ++ '/' :: joinSlash cs

/-- The component stack of Go `path.Clean`: empty and `.` components
are dropped, `..` pops the previous component (kept at the front of a
relative path, dropped at the root of a rooted one). -/
def cleanStack (rooted : Bool) : List Str → List Str → List Str
  | acc, [] => acc.reverse
  | acc, c :: cs =>
    if c = [] ∨ c = ['.'] then cleanStack rooted acc cs
    else if c = ['.', '.'] then
      if acc = [] then
        if rooted then cleanStack rooted [] cs
        else cleanStack rooted [['.', '.']] cs
      else if acc.headI = ['.', '.'] then cleanStack rooted (c :: acc) cs
      else cleanStack rooted acc.tail cs
    else cleanStack rooted (c :: acc) cs

/-- Whether a path is rooted (starts with `'/'`). -/
def isRooted (p : Str) : Bool := p.head? == some '/'

/-- The cleaned component body of a path. -/
def pathCleanBody (rooted : Bool) (p : Str) : Str :=
  joinSlash (cleanStack rooted [] (splitSlash p))

/-- Go `path.Clean`: empty path is `"."`; otherwise repeated slashes
and `.` components are eliminated, `..` eliminates the preceding
component (and is dropped at the root of a rooted path), the trailing
slash is removed and the leading slash of a rooted path is kept. -/
def pathCleanL (p : Str) : Str :=
  if p = [] then ['.']
  else if isRooted p then
    (if pathCleanBody true p = [] then ['/'] else '/' :: pathCleanBody true p)
  else
    (if pathCleanBody false p = [] then ['.'] else pathCleanBody false p)

/-- Go `path.Join(a, b)`: empty when both elements are empty, otherwise
the slash-joined non-empty elements, cleaned. -/
def goJoin (a b : Str) : Str :=
  if a = [] ∧ b = [] then []
  else if a = [] then pathCleanL b
  else pathCleanL (a ++ '/' :: b)

/-- List prefix test (Go `strings.HasPrefix`). -/
def startsWithL : Str → Str → Bool
  | _, [] => true
  | [], _ :: _ => false
  | c :: s, p :: ps => c == p && startsWithL s ps

/-- Replace the first occurrence of `pat` (non-empty) by `rep`. -/
def replAux (pat rep : Str) : Str → Str
  | [] => []
  | c :: s =>
    if startsWithL (c :: s) pat then rep ++ (c :: s).drop pat.length
    else c :: replAux pat rep s

/-- Go `strings.Replace(s, old, new, 1)`: with an empty `old` the
replacement is inserted in front, otherwise the first occurrence of
`old` is replaced. -/
def replaceOnce (s pat rep : Str) : Str :=
  if pat = [] then rep ++ s else replAux pat rep s

/-- The sentinel end-of-list cursor token of line 375. -/
def eofSentinel : Str := "g2gCZAAEbmV4dGQAA2VvZg".data

/-- `loopList` (lines 344–380): one page fetch.  A fetch error is
propagated; an absent `X-Upyun-List-Iter` response header yields
`(nil, "", nil)` (the parsed entries are discarded); the sentinel
cursor token is mapped to the empty cursor. -/
def loopList (env : LEnv) (key iter order : Str) (limit : Nat) :
    Except UErr (List FileInfo × Str) :=
  match env.fetch key iter order limit with
  | .error e => .error e
  | .ok pg =>
    match pg.iterHdr with
    | none => .ok ([], [])
    | some h => .ok (pg.infos, if h = eofSentinel then [] else h)

/-- Observable events of the traversal goroutine: a page fetch (the
`loopList` call with its key and cursor), an entry sent to the info
channel (with the directory and original name it came from, the
rewritten name actually sent, and the entry type), and an error sent to
the error channel. -/
inductive LEv where
  | fetch (key iter : Str)
  | emit (dir orig rel ftype : Str)
  | errSend (e : UErr)
deriving DecidableEq

/-- How a traversal run ends: normal return, abort after a fetch error,
or a Go panic (index out of range on `f.Name[0]`). -/
inductive LRes where
  | ok
  | errored (e : UErr)
  | panicked
deriving DecidableEq

/-- The two mutually recursive obligations of `listDir`: run the page
loop of a directory from a cursor, or process the remaining entries of
a fetched page. -/
inductive LTask where
  | pages (k iter : Str)
  | entries (k : Str) (fs : List FileInfo)

/-- The name rewrite of lines 313–319 for entry `name` of directory
`k`: absolute path via `path.Join`, `strings.Replace(abs, root, "",
1)`, then stripping a leading separator.  `none` when the rewritten
name is empty, in which case `f.Name[0]` panics. -/
def relName (root k name : Str) : Option Str :=
  if replaceOnce (goJoin k name) root [] = [] then none
  else if (replaceOnce (goJoin k name) root []).head? = some '/' then
    some (replaceOnce (goJoin k name) root []).tail
  else some (replaceOnce (goJoin k name) root [])

/-- The body of the `listDir` closure of `GetLargeList` (lines
299–332), fuelled: page loop (lines 305–330) and per-page entry loop
(lines 312–325), recursing depth-first into subdirectories before the
entry itself is sent.  `none` means the fuel ran out (the traversal did
not finish within `fuel` steps). -/
def walk (env : LEnv) (root order : Str) (recursive : Bool) :
    Nat → LTask → Option (List LEv × LRes)
  | 0, _ => none
  | fuel + 1, .pages k iter =>
    match loopList env k iter order 50 with
    | .error e => some ([.fetch k iter, .errSend e], .errored e)
    | .ok (infos, niter) =>
      match walk env root order recursive fuel (.entries k infos) with
      | none => none
      | some (tr, .ok) =>
        if niter = [] then some (.fetch k iter :: tr, .ok)
        else
          match walk env root order recursive fuel (.pages k niter) with
          | none => none
          | some (tr2, r2) => some (.fetch k iter :: (tr ++ tr2), r2)
      | some (tr, .errored e) => some (.fetch k iter :: tr, .errored e)
      | some (tr, .panicked) => some (.fetch k iter :: tr, .panicked)
  | _ + 1, .entries _ [] => some ([], .ok)
  | fuel + 1, .entries k (f :: fs) =>
    match relName root k f.name with
    | none => some ([], .panicked)
    | some rel =>
      match (if recursive && (f.ftype == ("folder".data)) then
          walk env root order recursive fuel
            (.pages (goJoin k f.name ++ ['/']) [])
        else some ([], .ok)) with
      | none => none
      | some (trS, .ok) =>
        match walk env root order recursive fuel (.entries k fs) with
        | none => none
        | some (trR, res) =>
          some (trS ++ .emit k f.name rel f.ftype :: trR, res)
      | some (trS, .errored e) => some (trS, .errored e)
      | some (trS, .panicked) => some (trS, .panicked)

/-- Root-key normalization of lines 290–292: ensure a trailing
separator. -/
def normKey (k : Str) : Str :=
  if k.getLast? = some '/' then k else k ++ ['/']

/-- The sort order header value of lines 293–296. -/
def ordOf (asc : Bool) : Str := if asc then "asc".data else "desc".data

/-- Result of a `GetLargeList` traversal: the goroutine's event trace,
how it ended, and whether each channel was closed (lines 336–337 close
both after `listDir` returns; a panic kills the goroutine before the
close statements run). -/
structure GOut where
  trace : List LEv
  result : LRes
  entriesClosed : Bool
  errsClosed : Bool
deriving DecidableEq

/-- `GetLargeList` (lines 287–341), fuelled. -/
def getLargeList (env : LEnv) (key0 : Str) (asc recursive : Bool)
    (fuel : Nat) : Option GOut :=
  let key := normKey key0
  match walk env key (ordOf asc) recursive fuel (.pages key []) with
  | none => none
  | some (tr, .panicked) => some ⟨tr, .panicked, false, false⟩
  | some (tr, .ok) => some ⟨tr, .ok, true, true⟩
  | some (tr, .errored e) => some ⟨tr, .errored e, true, true⟩

/-- No error was sent on this part of the trace. -/
def noErrSend (tr : List LEv) : Prop := ∀ e, LEv.errSend e ∉ tr

theorem noErrSend_nil : noErrSend [] := by
  intro e h
  simp at h

theorem noErrSend_append {a b : List LEv} :
    noErrSend (a ++ b) ↔ noErrSend a ∧ noErrSend b := by
  simp only [noErrSend, List.mem_append, not_or, forall_and]

theorem noErrSend_cons_fetch {k iter : Str} {tr : List LEv} :
    noErrSend (LEv.fetch k iter :: tr) ↔ noErrSend tr := by
  simp only [noErrSend, List.mem_cons, not_or]
  constructor
  · intro h e
    exact (h e).2
  · intro h e
    exact ⟨by simp, h e⟩

theorem noErrSend_cons_emit {d o r t : Str} {tr : List LEv} :
    noErrSend (LEv.emit d o r t :: tr) ↔ noErrSend tr := by
  simp only [noErrSend, List.mem_cons, not_or]
  constructor
  · intro h e
    exact (h e).2
  · intro h e
    exact ⟨by simp, h e⟩

/-- Shape of the error events of a completed traversal: a run that
ends normally or in a panic sent no error; a run that ends in a fetch
error sent exactly that error, as the very last event. -/
theorem walk_err_shape (env : LEnv) (root order : Str) (recursive : Bool) :
    ∀ fuel t tr res, walk env root order recursive fuel t = some (tr, res) →
      ((res = .ok ∨ res = .panicked) → noErrSend tr) ∧
      (∀ e, res = .errored e →
        ∃ t0, tr = t0 ++ [.errSend e] ∧ noErrSend t0) := by
  intro fuel
  induction fuel with
  | zero =>
    intro t tr res h
    simp [walk] at h
  | succ fuel ih =>
    intro t tr res h
    cases t with
    | pages k iter =>
      rw [walk] at h
      split at h
      · simp only [Option.some.injEq, Prod.mk.injEq] at h
        obtain ⟨rfl, rfl⟩ := h
        refine ⟨?_, ?_⟩
        · rintro (hx | hx) <;> simp at hx
        · intro e' he'
          simp only [LRes.errored.injEq] at he'
          subst he'
          exact ⟨[.fetch k iter], rfl, noErrSend_cons_fetch.mpr noErrSend_nil⟩
      · rename_i infos niter heqL
        split at h
        · exact Option.noConfusion h
        · rename_i tr1 hW
          split at h
          · simp only [Option.some.injEq, Prod.mk.injEq] at h
            obtain ⟨rfl, rfl⟩ := h
            refine ⟨?_, ?_⟩
            · intro _
              exact noErrSend_cons_fetch.mpr ((ih _ _ _ hW).1 (Or.inl rfl))
            · intro e' he'
              simp at he'
          · split at h
            · exact Option.noConfusion h
            · rename_i tr2 r2 hW2
              simp only [Option.some.injEq, Prod.mk.injEq] at h
              obtain ⟨rfl, rfl⟩ := h
              refine ⟨?_, ?_⟩
              · intro hres
                exact noErrSend_cons_fetch.mpr (noErrSend_append.mpr
                  ⟨(ih _ _ _ hW).1 (Or.inl rfl), (ih _ _ _ hW2).1 hres⟩)
              · intro e' he'
                obtain ⟨t0, ht, hno⟩ := (ih _ _ _ hW2).2 e' he'
                refine ⟨.fetch k iter :: (tr1 ++ t0), by simp [ht], ?_⟩
                exact noErrSend_cons_fetch.mpr (noErrSend_append.mpr
                  ⟨(ih _ _ _ hW).1 (Or.inl rfl), hno⟩)
        · rename_i tr1 e hW
          simp only [Option.some.injEq, Prod.mk.injEq] at h
          obtain ⟨rfl, rfl⟩ := h
          obtain ⟨t0, ht, hno⟩ := (ih _ _ _ hW).2 e rfl
          refine ⟨?_, ?_⟩
          · rintro (hx | hx) <;> simp at hx
          · intro e' he'
            simp only [LRes.errored.injEq] at he'
            subst he'
            exact ⟨.fetch k iter :: t0, by simp [ht],
              noErrSend_cons_fetch.mpr hno⟩
        · rename_i tr1 hW
          simp only [Option.some.injEq, Prod.mk.injEq] at h
          obtain ⟨rfl, rfl⟩ := h
          refine ⟨?_, ?_⟩
          · intro _
            exact noErrSend_cons_fetch.mpr ((ih _ _ _ hW).1 (Or.inr rfl))
          · intro e' he'
            simp at he'
    | entries k fs =>
      cases fs with
      | nil =>
        rw [walk] at h
        simp only [Option.some.injEq, Prod.mk.injEq] at h
        obtain ⟨rfl, rfl⟩ := h
        refine ⟨fun _ => noErrSend_nil, ?_⟩
        intro e' he'
        simp at he'
      | cons f fs =>
        rw [walk] at h
        split at h
        · simp only [Option.some.injEq, Prod.mk.injEq] at h
          obtain ⟨rfl, rfl⟩ := h
          refine ⟨fun _ => noErrSend_nil, ?_⟩
          intro e' he'
          simp at he'
        · rename_i rel hrel
          split at h
          · exact Option.noConfusion h
          · rename_i trS hsub
            split at h
            · exact Option.noConfusion h
            · rename_i trR resR hWR
              simp only [Option.some.injEq, Prod.mk.injEq] at h
              obtain ⟨rfl, rfl⟩ := h
              have hS : noErrSend trS := by
                split at hsub
                · exact (ih _ _ _ hsub).1 (Or.inl rfl)
                · simp only [Option.some.injEq, Prod.mk.injEq] at hsub
                  exact hsub.1 ▸ noErrSend_nil
              refine ⟨?_, ?_⟩
              · intro hres
                exact noErrSend_append.mpr
                  ⟨hS, noErrSend_cons_emit.mpr ((ih _ _ _ hWR).1 hres)⟩
              · intro e' he'
                obtain ⟨t0, ht, hno⟩ := (ih _ _ _ hWR).2 e' he'
                refine ⟨trS ++ .emit k f.name rel f.ftype :: t0,
                  by simp [ht], ?_⟩
                exact noErrSend_append.mpr
                  ⟨hS, noErrSend_cons_emit.mpr hno⟩
          · rename_i trS e hsub
            simp only [Option.some.injEq, Prod.mk.injEq] at h
            obtain ⟨rfl, rfl⟩ := h
            refine ⟨?_, ?_⟩
            · rintro (hx | hx) <;> simp at hx
            · intro e' he'
              simp only [LRes.errored.injEq] at he'
              subst he'
              split at hsub
              · exact (ih _ _ _ hsub).2 _ rfl
              · simp at hsub
          · rename_i trS hsub
            simp only [Option.some.injEq, Prod.mk.injEq] at h
            obtain ⟨rfl, rfl⟩ := h
            refine ⟨?_, ?_⟩
            · intro _
              split at hsub
              · exact (ih _ _ _ hsub).1 (Or.inr rfl)
              · simp at hsub
            · intro e' he'
              simp at he'

theorem errSend_last_decomp (e : UErr) :
    ∀ (p : List LEv), noErrSend p →
      ∀ l₁ e' l₂, p ++ [LEv.errSend e] = l₁ ++ LEv.errSend e' :: l₂ →
        l₂ = [] ∧ e' = e := by
  intro p
  induction p with
  | nil =>
    intro _ l₁ e' l₂ h
    cases l₁ with
    | nil =>
      simp only [List.nil_append, List.cons.injEq, LEv.errSend.injEq] at h
      exact ⟨h.2.symm, h.1.symm⟩
    | cons x xs =>
      simp only [List.nil_append] at h
      have hl := congrArg List.length h
      simp at hl
  | cons x p ih =>
    intro hno l₁ e' l₂ h
    cases l₁ with
    | nil =>
      simp only [List.nil_append, List.cons_append, List.cons.injEq] at h
      exact absurd (h.1 ▸ List.mem_cons_self x p) (hno e')
    | cons y l₁ =>
      simp only [List.cons_append, List.cons.injEq] at h
      exact ih (fun e'' he'' => hno e'' (List.mem_cons_of_mem x he''))
        l₁ e' l₂ h.2

/-- C6: on a completed traversal, both channels are closed in every
non-panicking outcome; if any page fetch failed, its error is the only
error ever sent, it is the very last event of the run (no page fetch or
entry emission happens anywhere in the traversal afterwards), and the
run aborts with it. -/
theorem getLargeList_error_halt (env : LEnv) (key0 : Str)
    (asc recursive : Bool) (fuel : Nat) (out : GOut)
    (hrun : getLargeList env key0 asc recursive fuel = some out)
    (hnp : out.result ≠ .panicked) :
    out.entriesClosed = true ∧ out.errsClosed = true ∧
    (∀ l₁ e l₂, out.trace = l₁ ++ LEv.errSend e :: l₂ →
      l₂ = [] ∧ out.result = .errored e) ∧
    (∀ e, out.result = .errored e →
      ∃ l₁, out.trace = l₁ ++ [LEv.errSend e] ∧
        ∀ e', LEv.errSend e' ∉ l₁) := by
  rw [getLargeList] at hrun
  split at hrun
  · exact Option.noConfusion hrun
  · rename_i tr hW
    simp only [Option.some.injEq] at hrun
    subst hrun
    simp at hnp
  · rename_i tr hW
    simp only [Option.some.injEq] at hrun
    subst hrun
    have hshape := walk_err_shape env (normKey key0) (ordOf asc) recursive
      fuel _ _ _ hW
    have hno : noErrSend tr := hshape.1 (Or.inl rfl)
    refine ⟨rfl, rfl, ?_, ?_⟩
    · intro l₁ e l₂ hdec
      exfalso
      have hdec' : tr = l₁ ++ LEv.errSend e :: l₂ := hdec
      exact hno e (by
        rw [hdec']
        exact List.mem_append_right _ (List.mem_cons_self _ _))
    · intro e he
      simp at he
  · rename_i tr e hW
    simp only [Option.some.injEq] at hrun
    subst hrun
    have hshape := walk_err_shape env (normKey key0) (ordOf asc) recursive
      fuel _ _ _ hW
    obtain ⟨t0, ht, hno⟩ := hshape.2 e rfl
    refine ⟨rfl, rfl, ?_, ?_⟩
    · intro l₁ e' l₂ hdec
      rw [ht] at hdec
      obtain ⟨hl2, he'⟩ := errSend_last_decomp e t0 hno l₁ e' l₂ hdec
      exact ⟨hl2, by rw [he']⟩
    · intro e' he'
      simp only [LRes.errored.injEq] at he'
      subst he'
      exact ⟨t0, ht, hno⟩

/-- A listing environment whose every page fetch fails. -/
def envErrC : LEnv where
  fetch := fun _ _ _ _ => .error ⟨false, "boom"⟩

theorem getLargeList_error_halt_witness :
    (⟨[LEv.fetch ("d/".data) [], LEv.errSend ⟨false, "boom"⟩],
        LRes.errored ⟨false, "boom"⟩, true, true⟩ : GOut).entriesClosed
        = true ∧
    (⟨[LEv.fetch ("d/".data) [], LEv.errSend ⟨false, "boom"⟩],
        LRes.errored ⟨false, "boom"⟩, true, true⟩ : GOut).errsClosed = true ∧
    (∀ l₁ e l₂,
      (⟨[LEv.fetch ("d/".data) [], LEv.errSend ⟨false, "boom"⟩],
          LRes.errored ⟨false, "boom"⟩, true, true⟩ : GOut).trace =
        l₁ ++ LEv.errSend e :: l₂ →
      l₂ = [] ∧
        (⟨[LEv.fetch ("d/".data) [], LEv.errSend ⟨false, "boom"⟩],
            LRes.errored ⟨false, "boom"⟩, true, true⟩ : GOut).result =
          .errored e) ∧
    (∀ e,
      (⟨[LEv.fetch ("d/".data) [], LEv.errSend ⟨false, "boom"⟩],
          LRes.errored ⟨false, "boom"⟩, true, true⟩ : GOut).result =
        .errored e →
      ∃ l₁,
        (⟨[LEv.fetch ("d/".data) [], LEv.errSend ⟨false, "boom"⟩],
            LRes.errored ⟨false, "boom"⟩, true, true⟩ : GOut).trace =
          l₁ ++ [LEv.errSend e] ∧ ∀ e', LEv.errSend e' ∉ l₁) :=
  getLargeList_error_halt envErrC ("d".data) false false 3 _ rfl (by decide)

/-- C7: a page whose cursor header holds the sentinel end-of-list token
is handled identically to one holding the empty token: `loopList`
returns the empty next cursor, and the page loop stops at this level
after processing the page's entries — no further page fetch is started
for this level. -/
theorem loopList_sentinel_stops (env : LEnv) (root order : Str)
    (recursive : Bool) (k iter : Str) (fuel : Nat) (pg : Page) (s : Str)
    (hf : env.fetch k iter order 50 = .ok pg) (hs : pg.iterHdr = some s)
    (hsent : s = eofSentinel ∨ s = []) :
    loopList env k iter order 50 = .ok (pg.infos, []) ∧
    walk env root order recursive (fuel + 1) (.pages k iter) =
      (match walk env root order recursive fuel (.entries k pg.infos) with
       | none => none
       | some (tr, r) => some (.fetch k iter :: tr, r)) := by
  have hll : loopList env k iter order 50 = .ok (pg.infos, []) := by
    rcases hsent with h | h <;> subst h <;> simp [loopList, hf, hs]
  refine ⟨hll, ?_⟩
  rw [walk, hll]
  split
  · rename_i heq
    exact absurd heq (by simp)
  · rename_i infos niter heq
    simp only [Except.ok.injEq, Prod.mk.injEq] at heq
    obtain ⟨h1, h2⟩ := heq
    subst h1
    subst h2
    rcases hW : walk env root order recursive fuel (.entries k pg.infos)
      with _ | ⟨tr, r⟩
    · rfl
    · cases r <;> simp

/-- A listing environment always answering with the sentinel cursor. -/
def envSentC : LEnv where
  fetch := fun _ _ _ _ => .ok ⟨[], some eofSentinel⟩

theorem loopList_sentinel_stops_witness :
    loopList envSentC ("k/".data) [] ("asc".data) 50 = .ok ([], []) ∧
    walk envSentC ("k/".data) ("asc".data) true 2 (.pages ("k/".data) []) =
      (match walk envSentC ("k/".data) ("asc".data) true 1
          (.entries ("k/".data) []) with
       | none => none
       | some (tr, r) => some (.fetch ("k/".data) [] :: tr, r)) :=
  loopList_sentinel_stops envSentC ("k/".data) ("asc".data) true
    ("k/".data) [] 1 ⟨[], some eofSentinel⟩ eofSentinel rfl rfl (Or.inl rfl)

/-- C9: a page-fetch response that lacks the cursor header entirely
stops the traversal of this subtree silently: `loopList` discards the
page and returns no error and the empty cursor, and the page loop ends
after just this one fetch, emitting nothing and sending no error. -/
theorem loopList_absent_iter_silent (env : LEnv) (root order : Str)
    (recursive : Bool) (k iter : Str) (fuel : Nat) (pg : Page)
    (hf : env.fetch k iter order 50 = .ok pg) (hh : pg.iterHdr = none) :
    loopList env k iter order 50 = .ok ([], []) ∧
    walk env root order recursive (fuel + 2) (.pages k iter) =
      some ([.fetch k iter], .ok) := by
  have hll : loopList env k iter order 50 = .ok ([], []) := by
    simp [loopList, hf, hh]
  refine ⟨hll, ?_⟩
  rw [walk, hll]
  split
  · rename_i heq
    exact absurd heq (by simp)
  · rename_i infos niter heq
    simp only [Except.ok.injEq, Prod.mk.injEq] at heq
    obtain ⟨h1, h2⟩ := heq
    subst h1
    subst h2
    have hE : walk env root order recursive (fuel + 1) (.entries k [])
        = some ([], .ok) := rfl
    rw [hE]
    simp

/-- A listing environment whose responses carry entries but no cursor
header. -/
def envNoIterC : LEnv where
  fetch := fun _ _ _ _ => .ok ⟨[⟨"c".data, "file".data⟩], none⟩

theorem loopList_absent_iter_silent_witness :
    loopList envNoIterC ("k/".data) [] ("asc".data) 50 = .ok ([], []) ∧
    walk envNoIterC ("k/".data) ("asc".data) true 3 (.pages ("k/".data) []) =
      some ([.fetch ("k/".data) []], .ok) :=
  loopList_absent_iter_silent envNoIterC ("k/".data) ("asc".data) true
    ("k/".data) [] 1 ⟨[⟨"c".data, "file".data⟩], none⟩ rfl rfl

/-! ### Path cleanliness: hypotheses under which the name rewrite of the
traversal yields root-relative names. -/

/-- A well-formed single path component: non-empty, no separator, and
not a dot component. -/
def goodName (n : Str) : Prop :=
  n ≠ [] ∧ '/' ∉ n ∧ n ≠ ['.'] ∧ n ≠ ['.', '.']

instance (n : Str) : Decidable (goodName n) :=
  inferInstanceAs (Decidable (n ≠ [] ∧ '/' ∉ n ∧ n ≠ ['.'] ∧ n ≠ ['.', '.']))

/-- The path made of the given components, each followed by a
separator. -/
def compsPath : List Str → Str
  | [] => []
  | c :: cs => c ++ '/' :: compsPath cs

/-- A clean directory path: an optional leading separator followed by
well-formed components each ending in a separator (non-empty unless
rooted). -/
def GoodDir (k : Str) : Prop :=
  ∃ (rooted : Bool) (cs : List Str),
    (∀ c ∈ cs, goodName c) ∧
    k = (if rooted then ['/'] else []) ++ compsPath cs ∧
    (rooted = true ∨ cs ≠ [])

/-- The key of a directory visited by the traversal: a clean directory
that extends the traversal root by well-formed components. -/
def DirInv (root k : Str) : Prop :=
  GoodDir k ∧ ∃ ds, (∀ d ∈ ds, goodName d) ∧ k = root ++ compsPath ds

theorem splitSlash_ne_nil (s : Str) : splitSlash s ≠ [] := by
  cases s with
  | nil => simp [splitSlash]
  | cons c rest =>
    rw [splitSlash]
    by_cases hc : c = '/' <;> simp [hc]

theorem splitSlash_cons_slash (rest : Str) :
    splitSlash ('/' :: rest) = [] :: splitSlash rest := by
  rw [splitSlash]
  simp

theorem splitSlash_cons_ne (c : Char) (rest : Str) (hc : ¬ c = '/') :
    splitSlash (c :: rest) =
      (c :: (splitSlash rest).headI) :: (splitSlash rest).tail := by
  rw [splitSlash]
  simp [hc]

theorem splitSlash_append_slash (a b : Str) :
    splitSlash (a ++ '/' :: b) = splitSlash a ++ splitSlash b := by
  induction a with
  | nil => simp [splitSlash_cons_slash, splitSlash]
  | cons c a ih =>
    by_cases hc : c = '/'
    · subst hc
      rw [List.cons_append, splitSlash_cons_slash, splitSlash_cons_slash, ih]
      rfl
    · rw [List.cons_append, splitSlash_cons_ne c _ hc,
        splitSlash_cons_ne c _ hc, ih]
      rcases hg : splitSlash a with _ | ⟨g, gs⟩
      · exact absurd hg (splitSlash_ne_nil a)
      · simp

theorem splitSlash_no_slash (n : Str) (h : '/' ∉ n) : splitSlash n = [n] := by
  induction n with
  | nil => rfl
  | cons c n ih =>
    have hc : ¬ c = '/' := by
      intro hEq
      exact h (hEq ▸ List.mem_cons_self c n)
    rw [splitSlash_cons_ne c n hc,
      ih (fun hm => h (List.mem_cons_of_mem c hm))]
    simp

/-- A component kept by `path.Clean` (neither empty nor a single
dot). -/
def realComp (c : Str) : Bool := !(c == [] || c == ['.'])

theorem cleanStack_no_dotdot (rooted : Bool) :
    ∀ cs acc, (∀ c ∈ cs, c ≠ ['.', '.']) →
      cleanStack rooted acc cs = acc.reverse ++ cs.filter realComp := by
  intro cs
  induction cs with
  | nil =>
    intro acc _
    simp [cleanStack]
  | cons c cs ih =>
    intro acc hcs
    have htail : ∀ c' ∈ cs, c' ≠ ['.', '.'] :=
      fun c' hm => hcs c' (List.mem_cons_of_mem c hm)
    rw [cleanStack]
    by_cases h1 : c = [] ∨ c = ['.']
    · rw [if_pos h1, ih _ htail]
      have hrc : realComp c = false := by
        rcases h1 with h | h <;> simp [realComp, h]
      simp [List.filter_cons, hrc]
    · rw [if_neg h1, if_neg (hcs c (List.mem_cons_self c cs)), ih _ htail]
      have hrc : realComp c = true := by
        push_neg at h1
        simp [realComp, h1.1, h1.2]
      simp [List.filter_cons, hrc]

theorem splitSlash_compsPath (b : Str) :
    ∀ cs, (∀ c ∈ cs, '/' ∉ c) →
      splitSlash (compsPath cs ++ b) = cs ++ splitSlash b := by
  intro cs
  induction cs with
  | nil => intro _; simp [compsPath]
  | cons c cs ih =>
    intro hcs
    have hc : '/' ∉ c := hcs c (List.mem_cons_self c cs)
    have h1 : compsPath (c :: cs) ++ b = c ++ '/' :: (compsPath cs ++ b) := by
      simp [compsPath]
    rw [h1, splitSlash_append_slash, splitSlash_no_slash c hc,
      ih (fun c' hm => hcs c' (List.mem_cons_of_mem c hm))]
    rfl

theorem joinSlash_append_single (n : Str) :
    ∀ cs, joinSlash (cs ++ [n]) = compsPath cs ++ n := by
  intro cs
  induction cs with
  | nil => simp [joinSlash, compsPath]
  | cons c cs ih =>
    cases cs with
    | nil => simp [joinSlash, compsPath]
    | cons c' cs' =>
      have h1 : (c :: c' :: cs') ++ [n] = c :: ((c' :: cs') ++ [n]) := rfl
      rw [h1, joinSlash, ih]
      · simp [compsPath]
      · simp

theorem compsPath_append_single (n : Str) :
    ∀ cs, compsPath (cs ++ [n]) = compsPath cs ++ n ++ ['/'] := by
  intro cs
  induction cs with
  | nil => simp [compsPath]
  | cons c cs ih =>
    simp [compsPath, ih]

theorem goodName_head_ne_slash {c : Char} {s : Str}
    (h : goodName (c :: s)) : ¬ c = '/' := by
  intro hEq
  exact h.2.1 (hEq ▸ List.mem_cons_self c s)

theorem GoodDir_ne_nil {k : Str} (h : GoodDir k) : k ≠ [] := by
  obtain ⟨rooted, cs, hcs, hk, hne⟩ := h
  cases rooted with
  | true => simp [hk]
  | false =>
    rcases hne with h | h
    · simp at h
    · cases cs with
      | nil => exact absurd rfl h
      | cons c cs =>
        subst hk
        rcases hc0 : c with _ | ⟨x, c'⟩
        · exact absurd hc0 (hcs c (List.mem_cons_self c cs)).1
        · simp [compsPath, hc0]

theorem GoodDir_sub {k n : Str} (hk : GoodDir k) (hn : goodName n) :
    GoodDir (k ++ n ++ ['/']) := by
  obtain ⟨rooted, cs, hcs, hkeq, hne⟩ := hk
  refine ⟨rooted, cs ++ [n], ?_, ?_, Or.inr (by simp)⟩
  · intro c hc
    rcases List.mem_append.mp hc with h | h
    · exact hcs c h
    · simp only [List.mem_singleton] at h
      subst h
      exact hn
  · rw [compsPath_append_single, hkeq]
    simp

theorem DirInv_sub {root k n : Str} (h : DirInv root k) (hn : goodName n) :
    DirInv root (k ++ n ++ ['/']) := by
  obtain ⟨hg, ds, hds, hkeq⟩ := h
  refine ⟨GoodDir_sub hg hn, ds ++ [n], ?_, ?_⟩
  · intro d hd
    rcases List.mem_append.mp hd with h | h
    · exact hds d h
    · simp only [List.mem_singleton] at h
      subst h
      exact hn
  · rw [compsPath_append_single, hkeq]
    simp

theorem DirInv_root {root : Str} (h : GoodDir root) : DirInv root root :=
  ⟨h, [], by simp, by simp [compsPath]⟩

theorem startsWithL_append (pat rest : Str) :
    startsWithL (pat ++ rest) pat = true := by
  induction pat with
  | nil => simp [startsWithL]
  | cons p ps ih =>
    show startsWithL (p :: (ps ++ rest)) (p :: ps) = true
    rw [startsWithL]
    simp [ih]

theorem replaceOnce_pre {pat : Str} (rest : Str) (hp : pat ≠ []) :
    replaceOnce (pat ++ rest) pat [] = rest := by
  rw [replaceOnce, if_neg hp]
  cases pat with
  | nil => exact absurd rfl hp
  | cons p ps =>
    show replAux (p :: ps) [] (p :: (ps ++ rest)) = rest
    have hsw : startsWithL (p :: (ps ++ rest)) (p :: ps) = true :=
      startsWithL_append (p :: ps) rest
    rw [replAux, if_pos hsw]
    have hdrop := List.drop_left (p :: ps) rest
    simpa using hdrop

theorem goodName_realComp {c : Str} (h : goodName c) : realComp c = true := by
  simp only [realComp, Bool.not_eq_true']
  simp [h.1, h.2.2.1]

theorem goJoin_gooddir {k n : Str} (hk : GoodDir k) (hn : goodName n) :
    goJoin k n = k ++ n := by
  obtain ⟨rooted, cs, hcs, hkeq, hne⟩ := hk
  have hknil : k ≠ [] := GoodDir_ne_nil ⟨rooted, cs, hcs, hkeq, hne⟩
  have hnnil : n ≠ [] := hn.1
  have hpne : k ++ '/' :: n ≠ [] := by simp
  have hnoslash : ∀ c ∈ cs, '/' ∉ c := fun c hc => (hcs c hc).2.1
  have hsplit : splitSlash (compsPath cs ++ '/' :: n) = cs ++ [[], n] := by
    rw [splitSlash_compsPath ('/' :: n) cs hnoslash, splitSlash_cons_slash,
      splitSlash_no_slash n hn.2.1]
  have hnodd : ∀ c ∈ cs ++ [[], n], c ≠ ['.', '.'] := by
    intro c hc
    rcases List.mem_append.mp hc with h | h
    · exact (hcs c h).2.2.2
    · rw [List.mem_cons, List.mem_singleton] at h
      rcases h with h | h
      · subst h; simp
      · subst h; exact hn.2.2.2
  have hr0 : realComp ([] : Str) = false := by simp [realComp]
  have hfilter : (cs ++ [[], n]).filter realComp = cs ++ [n] := by
    rw [List.filter_append]
    have h1 : cs.filter realComp = cs :=
      List.filter_eq_self.mpr (fun c hc => goodName_realComp (hcs c hc))
    have hrn : realComp n = true := goodName_realComp hn
    have h2 : ([[], n] : List Str).filter realComp = [n] := by
      simp [List.filter_cons, hrn, hr0]
    rw [h1, h2]
  have hbody2 : joinSlash (cs ++ [n]) = compsPath cs ++ n :=
    joinSlash_append_single n cs
  have hbodyne : compsPath cs ++ n ≠ [] := by
    intro h
    exact hnnil (List.append_eq_nil.mp h).2
  cases rooted with
  | true =>
    have hp : k ++ '/' :: n = '/' :: (compsPath cs ++ '/' :: n) := by
      rw [hkeq]
      simp
    have hroot : isRooted (k ++ '/' :: n) = true := by
      rw [hp, isRooted]
      simp
    have hnodd0 : ∀ c ∈ ([] : Str) :: (cs ++ [[], n]), c ≠ ['.', '.'] := by
      intro c hc
      rw [List.mem_cons] at hc
      rcases hc with h | hc
      · subst h; simp
      · exact hnodd c hc
    have hfilter0 : (([] : Str) :: (cs ++ [[], n])).filter realComp
        = cs ++ [n] := by
      rw [List.filter_cons, hr0]
      simp [hfilter]
    have hbody : pathCleanBody true (k ++ '/' :: n) = compsPath cs ++ n := by
      rw [pathCleanBody, hp, splitSlash_cons_slash, hsplit,
        cleanStack_no_dotdot true _ _ hnodd0]
      simp only [List.reverse_nil, List.nil_append, hfilter0, hbody2]
    rw [goJoin, if_neg (fun h => hknil h.1), if_neg hknil, pathCleanL,
      if_neg hpne, hroot, hbody]
    simp [hbodyne, hkeq]
  | false =>
    have hcs' : cs ≠ [] := by
      rcases hne with h | h
      · simp at h
      · exact h
    have hp : k ++ '/' :: n = compsPath cs ++ '/' :: n := by
      rw [hkeq]
      simp
    have hroot : isRooted (k ++ '/' :: n) = false := by
      rcases hcsval : cs with _ | ⟨c, cs'⟩
      · exact absurd hcsval hcs'
      · have hcgood := hcs c (hcsval ▸ List.mem_cons_self c cs')
        rcases hcval : c with _ | ⟨x, c''⟩
        · exact absurd hcval hcgood.1
        · have hx : ¬ x = '/' := goodName_head_ne_slash (hcval ▸ hcgood)
          rw [hp, hcsval, hcval]
          simp [compsPath, isRooted, hx]
    have hbody : pathCleanBody false (k ++ '/' :: n) = compsPath cs ++ n := by
      rw [pathCleanBody, hp, hsplit, cleanStack_no_dotdot false _ _ hnodd]
      simp only [List.reverse_nil, List.nil_append, hfilter, hbody2]
    rw [goJoin, if_neg (fun h => hknil h.1), if_neg hknil, pathCleanL,
      if_neg hpne, hroot, hbody]
    simp [hbodyne, hkeq]

theorem compsPath_append_head {ds : List Str} {n : Str}
    (hds : ∀ d ∈ ds, goodName d) (hn : goodName n) :
    (compsPath ds ++ n).head? ≠ some '/' := by
  cases ds with
  | nil =>
    simp only [compsPath, List.nil_append]
    cases n with
    | nil => exact absurd rfl hn.1
    | cons c s =>
      simp only [List.head?_cons, ne_eq, Option.some.injEq]
      exact goodName_head_ne_slash hn
  | cons d ds' =>
    have hd := hds d (List.mem_cons_self d ds')
    cases d with
    | nil => exact absurd rfl hd.1
    | cons x d' =>
      simp only [compsPath, List.cons_append, List.head?_cons, ne_eq,
        Option.some.injEq]
      exact goodName_head_ne_slash hd

theorem relName_eval {root k n : Str} (hroot : GoodDir root)
    (hinv : DirInv root k) (hn : goodName n) :
    ∃ ds, (∀ d ∈ ds, goodName d) ∧ k = root ++ compsPath ds ∧
      relName root k n = some (compsPath ds ++ n) := by
  obtain ⟨hg, ds, hds, hkeq⟩ := hinv
  refine ⟨ds, hds, hkeq, ?_⟩
  have hrel0 : replaceOnce (goJoin k n) root [] = compsPath ds ++ n := by
    rw [goJoin_gooddir hg hn, hkeq, List.append_assoc,
      replaceOnce_pre _ (GoodDir_ne_nil hroot)]
  have h1 : compsPath ds ++ n ≠ [] := by
    intro h
    exact hn.1 (List.append_eq_nil.mp h).2
  have h2 : (compsPath ds ++ n).head? ≠ some '/' :=
    compsPath_append_head hds hn
  rw [relName, hrel0, if_neg h1, if_neg h2]

theorem loopList_ok_infos (env : LEnv) (k iter order : Str) (limit : Nat)
    (infos : List FileInfo) (niter : Str)
    (h : loopList env k iter order limit = .ok (infos, niter)) :
    infos = [] ∨ ∃ pg, env.fetch k iter order limit = .ok pg ∧
      infos = pg.infos := by
  rw [loopList] at h
  split at h
  · exact Except.noConfusion h
  · rename_i pg hf
    split at h
    · simp only [Except.ok.injEq, Prod.mk.injEq] at h
      exact Or.inl h.1.symm
    · simp only [Except.ok.injEq, Prod.mk.injEq] at h
      exact Or.inr ⟨pg, hf, h.1.symm⟩

/-- Every emitted entry of the trace carries a root-relative name: the
root followed by the sent name is the entry's absolute path, and the
sent name is non-empty with no leading separator. -/
def EmitsOK (root : Str) (tr : List LEv) : Prop :=
  ∀ d orig rel ty, LEv.emit d orig rel ty ∈ tr →
    root ++ rel = d ++ orig ∧ rel ≠ [] ∧ rel.head? ≠ some '/'

/-- Invariant carried through the traversal: every visited directory
key cleanly extends the root, and pending entries have well-formed
names. -/
def TaskInv (root : Str) : LTask → Prop
  | .pages k _ => DirInv root k
  | .entries k fs => DirInv root k ∧ ∀ f ∈ fs, goodName f.name

theorem EmitsOK_nil (root : Str) : EmitsOK root [] := by
  intro d o r t h
  simp at h

theorem EmitsOK_append {root : Str} {a b : List LEv}
    (ha : EmitsOK root a) (hb : EmitsOK root b) : EmitsOK root (a ++ b) := by
  intro d o r t h
  rcases List.mem_append.mp h with h | h
  · exact ha _ _ _ _ h
  · exact hb _ _ _ _ h

theorem EmitsOK_cons_fetch {root k iter : Str} {tr : List LEv}
    (h : EmitsOK root tr) : EmitsOK root (.fetch k iter :: tr) := by
  intro d o r t hm
  rw [List.mem_cons] at hm
  rcases hm with hm | hm
  · simp at hm
  · exact h _ _ _ _ hm

theorem walk_names (env : LEnv) (root order : Str) (recursive : Bool)
    (hroot : GoodDir root)
    (hnames : ∀ k iter pg, env.fetch k iter order 50 = .ok pg →
      ∀ f ∈ pg.infos, goodName f.name) :
    ∀ fuel t tr res, walk env root order recursive fuel t = some (tr, res) →
      TaskInv root t → EmitsOK root tr := by
  intro fuel
  induction fuel with
  | zero =>
    intro t tr res h _
    simp [walk] at h
  | succ fuel ih =>
    intro t tr res h hinv
    cases t with
    | pages k iter =>
      rw [walk] at h
      split at h
      · simp only [Option.some.injEq, Prod.mk.injEq] at h
        obtain ⟨rfl, rfl⟩ := h
        intro d o r t hm
        rw [List.mem_cons, List.mem_singleton] at hm
        rcases hm with hm | hm <;> simp at hm
      · rename_i infos niter hL
        have hgood : ∀ f ∈ infos, goodName f.name := by
          rcases loopList_ok_infos env k iter order 50 infos niter hL
            with h0 | ⟨pg, hf, hi⟩
          · subst h0
            intro f hf
            simp at hf
          · subst hi
            exact hnames k iter pg hf
        split at h
        · exact Option.noConfusion h
        · rename_i tr1 hW
          have h1 : EmitsOK root tr1 := ih _ _ _ hW ⟨hinv, hgood⟩
          split at h
          · simp only [Option.some.injEq, Prod.mk.injEq] at h
            obtain ⟨rfl, rfl⟩ := h
            exact EmitsOK_cons_fetch h1
          · split at h
            · exact Option.noConfusion h
            · rename_i tr2 r2 hW2
              simp only [Option.some.injEq, Prod.mk.injEq] at h
              obtain ⟨rfl, rfl⟩ := h
              exact EmitsOK_cons_fetch
                (EmitsOK_append h1 (ih _ _ _ hW2 hinv))
        · rename_i tr1 e hW
          simp only [Option.some.injEq, Prod.mk.injEq] at h
          obtain ⟨rfl, rfl⟩ := h
          exact EmitsOK_cons_fetch (ih _ _ _ hW ⟨hinv, hgood⟩)
        · rename_i tr1 hW
          simp only [Option.some.injEq, Prod.mk.injEq] at h
          obtain ⟨rfl, rfl⟩ := h
          exact EmitsOK_cons_fetch (ih _ _ _ hW ⟨hinv, hgood⟩)
    | entries k fs =>
      cases fs with
      | nil =>
        rw [walk] at h
        simp only [Option.some.injEq, Prod.mk.injEq] at h
        obtain ⟨rfl, rfl⟩ := h
        exact EmitsOK_nil root
      | cons f fs =>
        obtain ⟨hdir, hgoodall⟩ := hinv
        have hfname : goodName f.name := hgoodall f (List.mem_cons_self f fs)
        have hgood' : ∀ f' ∈ fs, goodName f'.name :=
          fun f' hm => hgoodall f' (List.mem_cons_of_mem f hm)
        obtain ⟨ds, hds, hkeq, hrel⟩ := relName_eval hroot hdir hfname
        have hsubinv : TaskInv root (.pages (goJoin k f.name ++ ['/']) []) := by
          simp only [TaskInv]
          rw [goJoin_gooddir hdir.1 hfname]
          exact DirInv_sub hdir hfname
        rw [walk] at h
        split at h
        · rename_i hnone
          rw [hrel] at hnone
          exact Option.noConfusion hnone
        · rename_i rel hsome
          rw [hrel] at hsome
          simp only [Option.some.injEq] at hsome
          subst hsome
          split at h
          · exact Option.noConfusion h
          · rename_i trS hsub
            split at h
            · exact Option.noConfusion h
            · rename_i trR resR hWR
              simp only [Option.some.injEq, Prod.mk.injEq] at h
              obtain ⟨rfl, rfl⟩ := h
              have hR : EmitsOK root trR := ih _ _ _ hWR ⟨hdir, hgood'⟩
              have hS : EmitsOK root trS := by
                split at hsub
                · exact ih _ _ _ hsub hsubinv
                · simp only [Option.some.injEq, Prod.mk.injEq] at hsub
                  exact hsub.1 ▸ EmitsOK_nil root
              refine EmitsOK_append hS ?_
              intro d o r t hm
              rw [List.mem_cons] at hm
              rcases hm with hm | hm
              · simp only [LEv.emit.injEq] at hm
                obtain ⟨rfl, rfl, rfl, rfl⟩ := hm
                refine ⟨?_, ?_, compsPath_append_head hds hfname⟩
                · rw [hkeq]
                  simp
                · intro hE
                  exact hfname.1 (List.append_eq_nil.mp hE).2
              · exact hR _ _ _ _ hm
          · rename_i trS e hsub
            simp only [Option.some.injEq, Prod.mk.injEq] at h
            obtain ⟨rfl, rfl⟩ := h
            split at hsub
            · exact ih _ _ _ hsub hsubinv
            · simp at hsub
          · rename_i trS hsub
            simp only [Option.some.injEq, Prod.mk.injEq] at h
            obtain ⟨rfl, rfl⟩ := h
            split at hsub
            · exact ih _ _ _ hsub hsubinv
            · simp at hsub

/-- C8 (amended): (1) when a page entry denotes a subdirectory and
recursion is on, the subdirectory's whole traversal trace precedes the
entry's own emission and all remaining entries of the page (depth-first
order); (2) provided the normalized traversal root is a clean directory
path and every entry name is a well-formed single component, every
emitted entry's name is the entry's path relative to the traversal
root, non-empty and with no leading separator. -/
theorem getLargeList_depth_first_relative :
    (∀ (env : LEnv) (root order : Str) (k : Str) (f : FileInfo)
        (fs : List FileInfo) (rel : Str) (trS trR : List LEv) (res : LRes)
        (fuel : Nat),
      f.ftype = "folder".data →
      relName root k f.name = some rel →
      walk env root order true fuel
        (.pages (goJoin k f.name ++ ['/']) []) = some (trS, .ok) →
      walk env root order true fuel (.entries k fs) = some (trR, res) →
      walk env root order true (fuel + 1) (.entries k (f :: fs)) =
        some (trS ++ LEv.emit k f.name rel f.ftype :: trR, res)) ∧
    (∀ (env : LEnv) (key0 : Str) (asc recursive : Bool) (fuel : Nat)
        (out : GOut),
      GoodDir (normKey key0) →
      (∀ k iter pg, env.fetch k iter (ordOf asc) 50 = .ok pg →
        ∀ f ∈ pg.infos, goodName f.name) →
      getLargeList env key0 asc recursive fuel = some out →
      ∀ d orig rel ty, LEv.emit d orig rel ty ∈ out.trace →
        normKey key0 ++ rel = d ++ orig ∧ rel ≠ [] ∧
          rel.head? ≠ some '/') := by
  constructor
  · intro env root order k f fs rel trS trR res fuel hty hrel hsub hrest
    rw [walk]
    split
    · rename_i hnone
      rw [hrel] at hnone
      exact Option.noConfusion hnone
    · rename_i rel' hsome
      rw [hrel] at hsome
      simp only [Option.some.injEq] at hsome
      subst hsome
      have hcond : (true && (f.ftype == ("folder".data))) = true := by
        simp [hty]
      rw [if_pos hcond, hsub, hrest]
  · intro env key0 asc recursive fuel out hroot hnames hrun
    rw [getLargeList] at hrun
    split at hrun
    · exact Option.noConfusion hrun
    · rename_i tr hW
      simp only [Option.some.injEq] at hrun
      subst hrun
      exact walk_names env (normKey key0) (ordOf asc) recursive hroot
        hnames fuel _ _ _ hW (DirInv_root hroot)
    · rename_i tr hW
      simp only [Option.some.injEq] at hrun
      subst hrun
      exact walk_names env (normKey key0) (ordOf asc) recursive hroot
        hnames fuel _ _ _ hW (DirInv_root hroot)
    · rename_i tr e hW
      simp only [Option.some.injEq] at hrun
      subst hrun
      exact walk_names env (normKey key0) (ordOf asc) recursive hroot
        hnames fuel _ _ _ hW (DirInv_root hroot)

/-- The listing tree used by the C8 counterexample: the (unclean) root
key `"a//"` holds one plain file `"c"`. -/
def envCex : LEnv where
  fetch := fun k _ _ _ =>
    if k = "a//".data then .ok ⟨[⟨"c".data, "file".data⟩], some []⟩
    else .ok ⟨[], some []⟩

/-- C8 counterexample: with traversal root `"a//"`, the entry `"c"` of
the root directory is emitted under the name `"a/c"` — not its path
relative to the root (which would be `"c"`): `path.Join` cleans the
absolute path to `"a/c"` while `strings.Replace` looks for the uncleaned
root `"a//"`, so nothing is stripped. -/
theorem getLargeList_relative_name_cex :
    getLargeList envCex ("a//".data) true true 4 =
      some ⟨[LEv.fetch ("a//".data) [],
        LEv.emit ("a//".data) ("c".data) ("a/c".data) ("file".data)],
        LRes.ok, true, true⟩ ∧
    ¬ (normKey ("a//".data) ++ ("a/c".data) =
        ("a//".data) ++ ("c".data)) := by
  constructor
  · decide
  · decide

/-- Pages of the witness tree: root `r/` holds folder `s` and file `b`,
and `r/s/` holds file `x`. -/
def pgR : Page := ⟨[⟨"s".data, "folder".data⟩, ⟨"b".data, "file".data⟩], some []⟩

/-- Page of the subdirectory `r/s/`. -/
def pgS : Page := ⟨[⟨"x".data, "file".data⟩], some []⟩

/-- Empty page for any other key. -/
def pgE : Page := ⟨[], some []⟩

/-- Witness environment for the amended C8 theorem. -/
def envWitC : LEnv where
  fetch := fun k _ _ _ =>
    if k = "r/".data then .ok pgR
    else if k = "r/s/".data then .ok pgS
    else .ok pgE

theorem getLargeList_depth_first_relative_witness :
    (walk envWitC ("r/".data) ("asc".data) true 5
        (.entries ("r/".data) [⟨"s".data, "folder".data⟩,
          ⟨"b".data, "file".data⟩]) =
      some ([LEv.fetch ("r/s/".data) [],
        LEv.emit ("r/s/".data) ("x".data) ("s/x".data) ("file".data),
        LEv.emit ("r/".data) ("s".data) ("s".data) ("folder".data),
        LEv.emit ("r/".data) ("b".data) ("b".data) ("file".data)],
        LRes.ok)) ∧
    (∀ d orig rel ty, LEv.emit d orig rel ty ∈
        [LEv.fetch ("r/".data) [], LEv.fetch ("r/s/".data) [],
          LEv.emit ("r/s/".data) ("x".data) ("s/x".data) ("file".data),
          LEv.emit ("r/".data) ("s".data) ("s".data) ("folder".data),
          LEv.emit ("r/".data) ("b".data) ("b".data) ("file".data)] →
      normKey ("r".data) ++ rel = d ++ orig ∧ rel ≠ [] ∧
        rel.head? ≠ some '/') := by
  have hroot : GoodDir (normKey ("r".data)) := by
    refine ⟨false, [['r']], ?_, ?_, Or.inr (by simp)⟩
    · intro c hc
      rw [List.mem_singleton] at hc
      subst hc
      decide
    · decide
  have hnames : ∀ k iter pg, envWitC.fetch k iter (ordOf true) 50 = .ok pg →
      ∀ f ∈ pg.infos, goodName f.name := by
    intro k iter pg h f hf
    simp only [envWitC] at h
    split at h
    · rw [← Except.ok.inj h] at hf
      simp only [pgR, List.mem_cons, List.not_mem_nil, or_false] at hf
      rcases hf with rfl | rfl <;> decide
    · split at h
      · rw [← Except.ok.inj h] at hf
        simp only [pgS, List.mem_cons, List.not_mem_nil, or_false] at hf
        rcases hf with rfl <;> decide
      · rw [← Except.ok.inj h] at hf
        simp only [pgE] at hf
        simp at hf
  refine ⟨?_, ?_⟩
  · exact getLargeList_depth_first_relative.1 envWitC ("r/".data)
      ("asc".data) ("r/".data) ⟨"s".data, "folder".data⟩
      [⟨"b".data, "file".data⟩] ("s".data)
      [LEv.fetch ("r/s/".data) [],
        LEv.emit ("r/s/".data) ("x".data) ("s/x".data) ("file".data)]
      [LEv.emit ("r/".data) ("b".data) ("b".data) ("file".data)]
      LRes.ok 4 rfl (by decide) (by decide) (by decide)
  · exact getLargeList_depth_first_relative.2 envWitC ("r".data) true true 6
      ⟨[LEv.fetch ("r/".data) [], LEv.fetch ("r/s/".data) [],
        LEv.emit ("r/s/".data) ("x".data) ("s/x".data) ("file".data),
        LEv.emit ("r/".data) ("s".data) ("s".data) ("folder".data),
        LEv.emit ("r/".data) ("b".data) ("b".data) ("file".data)],
        LRes.ok, true, true⟩
      hroot hnames (by decide)

/-! ### `Purge` (lines 394–429) -/

/-- The response of a successful `doHTTPRequest` dispatch: status code
and the outcome of reading the body (`ioutil.ReadAll`). -/
structure HttpResp where
  status : Nat
  bodyRead : Except UErr String

/-- The environment of `Purge`: the outcome of the underlying POST
dispatch (response-or-nil paired with error-or-nil, exactly as
`doHTTPRequest` returns them) and the JSON decoder (`json.Unmarshal`
into `map[string][]string`, `none` on malformed JSON). -/
structure PurgeEnv where
  dispatch : Option HttpResp × Option UErr
  decode : String → Option (List (String × List String))

/-- How a `Purge` call ends: a nil-pointer dereference panic (when the
dispatch returned no response), or a normal return of the joined
invalid-URL list and the error value. -/
inductive PurgeOut where
  | panicked
  | ret (s : String) (e : Option UErr)
deriving DecidableEq

/-- Go `strings.Join(xs, ",")`. -/
def joinComma : List String → String
  | [] => ""
  | [x] => x
  | x :: xs => x ++ "," ++ joinComma xs

/-- Lookup in the decoded JSON object (Go map read; zero value for a
missing key is the nil slice). -/
def lookupL (m : List (String × List String)) (k : String) : List String :=
  match m with
  | [] => []
  | (k', v) :: rest => if k' = k then v else lookupL rest k

/-- `Purge` (lines 395–429).  Lines 410–411 run `defer
resp.Body.Close()` before the dispatch error is ever examined, so a
failed dispatch (nil response together with a non-nil error)
dereferences the nil response and panics instead of reaching any
return; otherwise the dispatch error is shadowed and the body is read,
a 2xx status decodes the JSON result (malformed JSON is treated as "no
invalid URLs"), and a non-2xx status returns the body as the error
message. -/
def purge (env : PurgeEnv) : PurgeOut :=
  match env.dispatch with
  | (none, _) => .panicked
  | (some resp, _) =>
    match resp.bodyRead with
    | .error e => .ret "" (some e)
    | .ok content =>
      if resp.status / 100 = 2 then
        match env.decode content with
        | none => .ret "" none
        | some m => .ret (joinComma (lookupL m "invalid_domain_of_url")) none
      else .ret "" (some ⟨false, content⟩)

/-- C10: when the HTTP dispatch of the purge POST fails (nil response
together with a non-nil error), `Purge` does not return that error —
the deferred `resp.Body.Close()` dereferences the nil response and the
call panics before reaching any return, so the error branch of the
HTTP call is never handled. -/
theorem purge_nil_deref (env : PurgeEnv) (e : UErr)
    (h : env.dispatch = (none, some e)) :
    purge env = .panicked ∧ ∀ s, purge env ≠ .ret s (some e) := by
  have hp : purge env = .panicked := by
    rw [purge, h]
  refine ⟨hp, fun s hcontra => ?_⟩
  rw [hp] at hcontra
  exact PurgeOut.noConfusion hcontra

/-- A purge environment whose dispatch fails with a network error. -/
def purgeEnvC : PurgeEnv := ⟨(none, some ⟨true, "dial tcp: timeout"⟩), fun _ => none⟩

theorem purge_nil_deref_witness :
    purge purgeEnvC = .panicked ∧
    ∀ s, purge purgeEnvC ≠ .ret s (some ⟨true, "dial tcp: timeout"⟩) :=
  purge_nil_deref purgeEnvC ⟨true, "dial tcp: timeout"⟩ rfl

end Upyun
